import Mathlib

/-!
Shallow embedding of the `dsp` package of `ejuju/poc-go-music` (Go).

Modelling conventions:
- `time.Duration` (int64 nanoseconds) is modelled as unbounded `Int`;
  int64 overflow is out of scope for the properties treated here.
- `float64` values are idealized as exact rationals (`ℚ`): every finite
  float64 value is a rational, and the idealization makes the arithmetic
  exact instead of rounded.
- Go's float64-to-int64 conversion truncates toward zero (`goTrunc`).
- Go's integer `%` truncates toward zero (`Int.tmod`); `%` with a zero
  divisor is a runtime panic, modelled as `Except.error .divideByZero`.
- The `panic("unreachable")` fall-through of `Sequence` is modelled as
  `Except.error .unreachableSegment`.
- `Combine` over an empty list divides `0.0 / 0.0` in Go, producing the
  float64 NaN value; NaN (which `ℚ` lacks) is modelled as `Option.none`.
- The sampling loop of `Sample` never terminates when its step is
  negative; a diverging call is modelled as `Option.none`.
-/

namespace DSP

/-- Source: `type Signal interface { At(x time.Duration) (y float64) }`;
a signal is its evaluation function. -/
abbrev Signal := Int → ℚ

/-- Source: `func Constant(v float64) Signal`. -/
def Constant (v : ℚ) : Signal := fun _ => v

/-- Source: `func Amplify(v, by Signal) Signal`, the pointwise product. -/
def Amplify (v b : Signal) : Signal := fun x => v x * b x

/-- Source: `func Combine(signals ...Signal) Signal`; sums the evaluations and
divides by the float64 cast of the length.  With zero signals Go computes
`0.0 / 0.0 = NaN`, modelled as `none`. -/
def Combine (signals : List Signal) (x : Int) : Option ℚ :=
  let y : ℚ := (signals.map (fun s => s x)).sum
  if signals.length = 0 then none
  else some (y / (signals.length : ℚ))

/-- Source: `type FiniteSignal struct { Signal; time.Duration }`. -/
structure FiniteSignal where
  signal : Signal
  duration : Int

/-- Source: `func F(d time.Duration, s Signal) FiniteSignal`. -/
def F (d : Int) (s : Signal) : FiniteSignal := ⟨s, d⟩

@[simp] theorem F_signal (d : Int) (s : Signal) : (F d s).signal = s := rfl

@[simp] theorem F_duration (d : Int) (s : Signal) : (F d s).duration = d := rfl

/-- Source: `func Blank(d time.Duration) FiniteSignal`. -/
def Blank (d : Int) : FiniteSignal := ⟨Constant 0, d⟩

/-- The Go runtime panics that evaluation of a `Sequence` signal can raise. -/
inductive GoPanic where
  /-- `runtime error: integer divide by zero`, raised by `x % 0`. -/
  | divideByZero
  /-- the explicit `panic("unreachable")` fall-through. -/
  | unreachableSegment
deriving DecidableEq

/-- The accumulation `totalDuration += s.Duration` in `Sequence`. -/
def totalDuration (signals : List FiniteSignal) : Int :=
  (signals.map (fun s => s.duration)).sum

/-- The segment-selection loop body of `Sequence`: walk the segments with
accumulator `i`, firing on the first segment with `x >= i && x < i+s.Duration`;
falling through the whole list is `panic("unreachable")`. -/
def seqWalk (x : Int) : List FiniteSignal → Int → Except GoPanic ℚ
  | [], _ => .error .unreachableSegment
  | s :: rest, i =>
      if x ≥ i ∧ x < i + s.duration then .ok (s.signal x)
      else seqWalk x rest (i + s.duration)

/-- Source: `func Sequence(signals ...FiniteSignal) Signal`, as its evaluation
function.  Go evaluates `x % totalDuration` first; with `totalDuration = 0`
this is the integer-divide-by-zero runtime panic.  Go's `%` truncates
toward zero (`Int.tmod`). -/
def Sequence (signals : List FiniteSignal) (x : Int) : Except GoPanic ℚ :=
  if totalDuration signals = 0 then .error .divideByZero
  else seqWalk (Int.tmod x (totalDuration signals)) signals 0

/-- Offset of segment `k` inside a sequence: the sum of the durations of
the segments before it (the value of the accumulator `i` when the walk
reaches segment `k`). -/
def offsetOf (signals : List FiniteSignal) (k : ℕ) : Int :=
  totalDuration (signals.take k)

/-- Go's `time.Duration(i)` conversion from `float64`: truncation toward
zero (idealized floats are exact rationals). -/
def goTrunc (q : ℚ) : Int := if q < 0 then ⌈q⌉ else ⌊q⌋

/-- The sampling loop of `Sample`:
`for i := float64(from); i < float64(from+to); i += step { frames = append(frames, s.At(time.Duration(i))) }`.
The structural `fuel` argument only bounds the number of iterations; when
the step is positive, any fuel at least the iteration count
`⌈(bound - i) / step⌉` gives the exact result of the unbounded Go loop
(`sampleIter_spec` below). -/
def sampleIter (s : Signal) (bound step : ℚ) : ℕ → ℚ → List ℚ
  | 0, _ => []
  | fuel + 1, i =>
      if i < bound then s (goTrunc i) :: sampleIter s bound step fuel (i + step)
      else []

/-- Source: `func Sample(s Signal, rate int, from, to time.Duration) (frames []float64)`.
`step = float64(time.Second) / float64(rate)`; the loop runs `i` from
`float64(from)` while `i < float64(from+to)`, stepping by `step`.
Go float64 corner cases of the source, made explicit:
- `rate = 0` gives `step = +Inf`, so the loop body runs at most once
  (after one step `i = +Inf` fails the bound test);
- `rate < 0` gives `step < 0`, so once entered the loop never exits
  (modelled as `none`);
- `rate > 0` terminates after exactly `⌈(to) · rate / 1e9⌉` iterations,
  which is the fuel passed to `sampleIter`. -/
def Sample (s : Signal) (rate : Int) (frm tto : Int) : Option (List ℚ) :=
  if rate = 0 then
    if (frm : ℚ) < ((frm + tto : Int) : ℚ) then some [s (goTrunc (frm : ℚ))]
    else some []
  else if rate < 0 then
    if (frm : ℚ) < ((frm + tto : Int) : ℚ) then none
    else some []
  else
    let step : ℚ := 1000000000 / (rate : ℚ)
    let bound : ℚ := ((frm + tto : Int) : ℚ)
    some (sampleIter s bound step (⌈(bound - (frm : ℚ)) / step⌉.toNat) (frm : ℚ))

/-- A float64 value, identified with its IEEE-754 bit pattern
(`math.Float64bits` is a bijection between float64 values and `uint64`,
so bit-for-bit statements about floats are exactly statements about
these 64-bit patterns). -/
abbrev Float64 := Fin 18446744073709551616

/-- Go `math.Float64bits`. -/
def Float64bits (f : Float64) : ℕ := f.val

/-- Go `math.Float64frombits` (on the bit-pattern representation). -/
def Float64frombits (v : ℕ) : Float64 :=
  ⟨v % 18446744073709551616, Nat.mod_lt v (by norm_num)⟩

/-- Go `binary.BigEndian.PutUint64(buf[:], v)`: the eight bytes of `v`,
most significant first (`byte(v >> 56) ... byte(v)`; `byte(w) = w % 256`). -/
def putUint64BE (v : ℕ) : List ℕ :=
  [v / 2 ^ 56 % 256, v / 2 ^ 48 % 256, v / 2 ^ 40 % 256, v / 2 ^ 32 % 256,
   v / 2 ^ 24 % 256, v / 2 ^ 16 % 256, v / 2 ^ 8 % 256, v % 256]

/-- Source: `func EncodePCM(frames []float64) (b []byte)`; for each frame, append
the big-endian bytes of its `Float64bits` to the buffer. -/
def EncodePCM (frames : List Float64) : List ℕ :=
  frames.foldl (fun b pulse => b ++ putUint64BE (Float64bits pulse)) []

/-- Modelled from the spec: the decoder is not part of the repository; the
spec defines decoding as reading the byte buffer as consecutive big-endian
64-bit floats, 8 bytes at a time, in order. -/
def DecodePCM : List ℕ → List Float64
  | b0 :: b1 :: b2 :: b3 :: b4 :: b5 :: b6 :: b7 :: rest =>
      Float64frombits
        (((((((b0 * 256 + b1) * 256 + b2) * 256 + b3) * 256 + b4) * 256 + b5)
            * 256 + b6) * 256 + b7) :: DecodePCM rest
  | _ => []

end DSP

namespace DSP

-- Bridge between Go's truncating `%` and mathematical mod on the
-- nonnegative inputs the claims quantify over.
theorem tmod_eq_emod_of_nonneg (a b : Int) (ha : 0 ≤ a) (hb : 0 ≤ b) :
    Int.tmod a b = a % b :=
  Int.tmod_eq_emod ha hb

@[simp] theorem totalDuration_nil : totalDuration [] = 0 := rfl

@[simp] theorem totalDuration_cons (s : FiniteSignal) (rest : List FiniteSignal) :
    totalDuration (s :: rest) = s.duration + totalDuration rest := by
  simp [totalDuration]

@[simp] theorem offsetOf_zero (signals : List FiniteSignal) : offsetOf signals 0 = 0 := rfl

@[simp] theorem offsetOf_cons_succ (s : FiniteSignal) (rest : List FiniteSignal) (k : ℕ) :
    offsetOf (s :: rest) (k + 1) = s.duration + offsetOf rest k := by
  simp [offsetOf, List.take_succ_cons, totalDuration]

theorem seqWalk_cons (x i : Int) (s : FiniteSignal) (rest : List FiniteSignal) :
    seqWalk x (s :: rest) i
      = if x ≥ i ∧ x < i + s.duration then .ok (s.signal x)
        else seqWalk x rest (i + s.duration) := rfl

theorem totalDuration_nonneg (signals : List FiniteSignal)
    (hd : ∀ s ∈ signals, 0 ≤ s.duration) : 0 ≤ totalDuration signals := by
  induction signals with
  | nil => simp
  | cons s rest ih =>
      have hs := hd s (List.mem_cons_self s rest)
      have hrest := ih (fun u hu => hd u (List.mem_cons_of_mem s hu))
      rw [totalDuration_cons]
      omega

theorem offsetOf_nonneg (signals : List FiniteSignal) (k : ℕ)
    (hd : ∀ s ∈ signals, 0 ≤ s.duration) : 0 ≤ offsetOf signals k :=
  totalDuration_nonneg _ (fun u hu => hd u (List.take_subset k signals hu))

-- The walk fires on segment `k` whenever `x` lies in that segment's
-- half-open interval shifted by the running accumulator `i`.
theorem seqWalk_fires (signals : List FiniteSignal) (k : ℕ) (hk : k < signals.length)
    (x i : Int) (hd : ∀ s ∈ signals, 0 ≤ s.duration)
    (h1 : i + offsetOf signals k ≤ x)
    (h2 : x < i + offsetOf signals k + (signals.get ⟨k, hk⟩).duration) :
    seqWalk x signals i = .ok ((signals.get ⟨k, hk⟩).signal x) := by
  induction signals generalizing k i with
  | nil => exact absurd hk (by simp)
  | cons s rest ih =>
      cases k with
      | zero =>
          rw [offsetOf_zero] at h1 h2
          have hget : (s :: rest).get ⟨0, hk⟩ = s := rfl
          rw [hget] at h2 ⊢
          rw [seqWalk_cons, if_pos ⟨by omega, by omega⟩]
      | succ k =>
          have hk' : k < rest.length := by
            rw [List.length_cons] at hk; omega
          rw [offsetOf_cons_succ] at h1 h2
          have hofs : 0 ≤ offsetOf rest k :=
            offsetOf_nonneg rest k (fun u hu => hd u (List.mem_cons_of_mem s hu))
          have hget : (s :: rest).get ⟨k + 1, hk⟩ = rest.get ⟨k, hk'⟩ := rfl
          rw [hget] at h2 ⊢
          rw [seqWalk_cons, if_neg (by omega)]
          exact ih k hk' (i + s.duration)
            (fun u hu => hd u (List.mem_cons_of_mem s hu)) (by omega) (by omega)

-- The walk always returns a value when `x` lies inside the total window.
theorem seqWalk_isOk (signals : List FiniteSignal) (x i : Int)
    (hd : ∀ s ∈ signals, 0 ≤ s.duration)
    (h1 : i ≤ x) (h2 : x < i + totalDuration signals) :
    ∃ y, seqWalk x signals i = .ok y := by
  induction signals generalizing i with
  | nil =>
      rw [totalDuration_nil] at h2
      omega
  | cons s rest ih =>
      rw [totalDuration_cons] at h2
      by_cases hx : x < i + s.duration
      · exact ⟨s.signal x, by rw [seqWalk_cons, if_pos ⟨h1, hx⟩]⟩
      · obtain ⟨y, hy⟩ := ih (i + s.duration)
          (fun u hu => hd u (List.mem_cons_of_mem s hu)) (by omega) (by omega)
        exact ⟨y, by rw [seqWalk_cons, if_neg (by omega)]; exact hy⟩

/-- Claim C1: with nonnegative segment durations, positive total duration
`D` and `t ≥ 0`, whenever `t' = t mod D` (Go's truncating mod, which here
equals the mathematical mod) falls in segment `k`'s half-open interval
`[offset, offset + duration)`, `Sequence` evaluates segment `k`'s
underlying signal at the absolute, non-relocalized time `t'` — not at a
time relative to the segment's own start. -/
theorem sequence_absolute_time (signals : List FiniteSignal) (t : Int)
    (k : ℕ) (hk : k < signals.length)
    (hd : ∀ s ∈ signals, 0 ≤ s.duration)
    (htot : 0 < totalDuration signals) (ht : 0 ≤ t)
    (h1 : offsetOf signals k ≤ Int.tmod t (totalDuration signals))
    (h2 : Int.tmod t (totalDuration signals)
            < offsetOf signals k + (signals.get ⟨k, hk⟩).duration) :
    Sequence signals t
      = .ok ((signals.get ⟨k, hk⟩).signal (Int.tmod t (totalDuration signals))) := by
  have hne : totalDuration signals ≠ 0 := by omega
  rw [Sequence, if_neg hne]
  exact seqWalk_fires signals k hk (Int.tmod t (totalDuration signals)) 0 hd
    (by omega) (by omega)

/-- Claim C1 witness: two constant segments of durations 2 and 3, `t = 7`;
`t' = 7 mod 5 = 2` falls in the second segment (`offset 2, duration 3`),
whose signal is evaluated at the absolute time 2. -/
theorem sequence_absolute_time_witness :
    (1 < ([F 2 (Constant 1), F 3 (Constant 5)] : List FiniteSignal).length)
      ∧ (∀ s ∈ [F 2 (Constant 1), F 3 (Constant 5)], 0 ≤ s.duration)
      ∧ 0 < totalDuration [F 2 (Constant 1), F 3 (Constant 5)]
      ∧ 0 ≤ (7 : Int)
      ∧ offsetOf [F 2 (Constant 1), F 3 (Constant 5)] 1
          ≤ Int.tmod 7 (totalDuration [F 2 (Constant 1), F 3 (Constant 5)])
      ∧ Int.tmod 7 (totalDuration [F 2 (Constant 1), F 3 (Constant 5)])
          < offsetOf [F 2 (Constant 1), F 3 (Constant 5)] 1 + (3 : Int)
      ∧ Sequence [F 2 (Constant 1), F 3 (Constant 5)] 7
          = .ok ((Constant 5)
              (Int.tmod 7 (totalDuration [F 2 (Constant 1), F 3 (Constant 5)]))) :=
  ⟨by decide, by decide, by decide, by decide, by decide, by decide,
    sequence_absolute_time [F 2 (Constant 1), F 3 (Constant 5)] 7 1 (by decide)
      (by decide) (by decide) (by decide) (by decide) (by decide)⟩

/-- Claim C6: a `Sequence` with positive total duration `D` is periodic
with period `D`: evaluation at `t + D` equals evaluation at `t` for every
`t ≥ 0` (the two evaluations agree as whole outcomes, panics included). -/
theorem sequence_periodic (signals : List FiniteSignal) (t : Int)
    (htot : 0 < totalDuration signals) (ht : 0 ≤ t) :
    Sequence signals (t + totalDuration signals) = Sequence signals t := by
  have hne : totalDuration signals ≠ 0 := by omega
  have h1 : Int.tmod (t + totalDuration signals) (totalDuration signals)
      = Int.tmod t (totalDuration signals) := by
    rw [tmod_eq_emod_of_nonneg (t + totalDuration signals) (totalDuration signals)
          (by omega) (by omega),
        tmod_eq_emod_of_nonneg t (totalDuration signals) ht (by omega)]
    have hrw : t + totalDuration signals
        = t + totalDuration signals * 1 := by ring
    rw [hrw, Int.add_mul_emod_self_left]
  rw [Sequence, Sequence, if_neg hne, if_neg hne, h1]

/-- Claim C6 witness: one constant segment of duration 2, `t = 3`. -/
theorem sequence_periodic_witness :
    0 < totalDuration [F 2 (Constant 1)] ∧ 0 ≤ (3 : Int)
      ∧ Sequence [F 2 (Constant 1)] (3 + totalDuration [F 2 (Constant 1)])
          = Sequence [F 2 (Constant 1)] 3 :=
  ⟨by decide, by decide, sequence_periodic [F 2 (Constant 1)] 3 (by decide) (by decide)⟩

/-- Claim C7: a time offset exactly on the boundary between two segments
of positive durations `d1, d2` belongs to the segment starting there:
`Sequence` evaluated at `d1` returns the second segment's underlying
signal evaluated at `d1`. -/
theorem sequence_boundary_second_segment (s1 s2 : Signal) (d1 d2 : Int)
    (hd1 : 0 < d1) (hd2 : 0 < d2) :
    Sequence [F d1 s1, F d2 s2] d1 = .ok (s2 d1) := by
  have htot : totalDuration [F d1 s1, F d2 s2] = d1 + d2 := by
    simp [F]
  have hmod : Int.tmod d1 (d1 + d2) = d1 := by
    rw [tmod_eq_emod_of_nonneg d1 (d1 + d2) (by omega) (by omega)]
    exact Int.emod_eq_of_lt (by omega) (by omega)
  have hcond1 : ¬(d1 ≥ 0 ∧ d1 < 0 + (F d1 s1).duration) := by
    simp only [F_duration]; omega
  have hcond2 : d1 ≥ 0 + (F d1 s1).duration
      ∧ d1 < 0 + (F d1 s1).duration + (F d2 s2).duration := by
    simp only [F_duration]; omega
  rw [Sequence, htot, if_neg (by omega), hmod, seqWalk_cons, if_neg hcond1,
      seqWalk_cons, if_pos hcond2, F_signal]

/-- Claim C7 witness: segments `(Constant 1, 2)` and `(Constant 5, 3)`,
evaluated at the boundary `t = 2`. -/
theorem sequence_boundary_second_segment_witness :
    0 < (2 : Int) ∧ 0 < (3 : Int)
      ∧ Sequence [F 2 (Constant 1), F 3 (Constant 5)] 2 = .ok (Constant 5 2) :=
  ⟨by decide, by decide,
    sequence_boundary_second_segment (Constant 1) (Constant 5) 2 3 (by decide) (by decide)⟩

/-- Claim C10: with nonnegative integer durations of positive total and
`t ≥ 0`, the segment walk always finds a containing segment: evaluation
returns a value and the `panic("unreachable")` fall-through is never
reached (the duration accumulation is exact integer arithmetic). -/
theorem sequence_walk_never_falls_through (signals : List FiniteSignal) (t : Int)
    (hd : ∀ s ∈ signals, 0 ≤ s.duration)
    (htot : 0 < totalDuration signals) (ht : 0 ≤ t) :
    ∃ y, Sequence signals t = .ok y := by
  have hne : totalDuration signals ≠ 0 := by omega
  rw [Sequence, if_neg hne]
  have hx : Int.tmod t (totalDuration signals) = t % totalDuration signals :=
    tmod_eq_emod_of_nonneg t (totalDuration signals) ht (by omega)
  refine seqWalk_isOk signals _ 0 hd ?_ ?_
  · rw [hx]; exact Int.emod_nonneg t hne
  · rw [hx, zero_add]; exact Int.emod_lt_of_pos t htot

/-- Claim C10 witness: segments of durations 2 and 3, `t = 7`. -/
theorem sequence_walk_never_falls_through_witness :
    (∀ s ∈ [F 2 (Constant 1), F 3 (Constant 5)], 0 ≤ s.duration)
      ∧ 0 < totalDuration [F 2 (Constant 1), F 3 (Constant 5)]
      ∧ 0 ≤ (7 : Int)
      ∧ ∃ y, Sequence [F 2 (Constant 1), F 3 (Constant 5)] 7 = .ok y :=
  ⟨by decide, by decide, by decide,
    sequence_walk_never_falls_through [F 2 (Constant 1), F 3 (Constant 5)] 7
      (by decide) (by decide) (by decide)⟩

/-- Claim C3 counterexample: `Sequence` with no segments (total duration 0)
is not rejected before the modulo — evaluating the returned signal at
`t = 0` performs `0 % 0`, which is the integer-divide-by-zero runtime
panic; so "the modulo-by-zero is never performed" is false on the code. -/
theorem sequence_zero_total_counterexample :
    Sequence [] 0 = .error .divideByZero := rfl

/-- Claim C3 (amended): when the total duration is zero, every evaluation
of the returned signal fails with the integer-divide-by-zero runtime panic
raised by the modulo itself; no NaN amplitude is ever produced, but the
modulo-by-zero IS performed (it is the failure), and `Sequence` itself
does not reject its arguments up front. -/
theorem sequence_zero_total_panics (signals : List FiniteSignal) (t : Int)
    (h : totalDuration signals = 0) :
    Sequence signals t = .error .divideByZero := by
  rw [Sequence, if_pos h]

/-- Claim C3 witness: the empty segment list, evaluated at `t = 5`. -/
theorem sequence_zero_total_panics_witness :
    totalDuration [] = 0 ∧ Sequence [] 5 = .error .divideByZero :=
  ⟨rfl, sequence_zero_total_panics [] 5 rfl⟩

theorem sampleIter_zero (s : Signal) (bound step i : ℚ) :
    sampleIter s bound step 0 i = [] := rfl

theorem sampleIter_succ (s : Signal) (bound step i : ℚ) (fuel : ℕ) :
    sampleIter s bound step (fuel + 1) i
      = if i < bound then s (goTrunc i) :: sampleIter s bound step fuel (i + step)
        else [] := rfl

-- With a positive step, any fuel at least the iteration count reproduces
-- the unbounded Go loop: the frames are the signal evaluated at the
-- truncations of `i, i + step, i + 2·step, …` while below the bound.
theorem sampleIter_spec (s : Signal) (bound step : ℚ) (hstep : 0 < step)
    (fuel : ℕ) (i : ℚ) (hfuel : ⌈(bound - i) / step⌉ ≤ (fuel : ℤ)) :
    sampleIter s bound step fuel i
      = (List.range (⌈(bound - i) / step⌉.toNat)).map
          (fun (k : ℕ) => s (goTrunc (i + (k : ℚ) * step))) := by
  induction fuel generalizing i with
  | zero =>
      have h0 : (⌈(bound - i) / step⌉).toNat = 0 := by omega
      rw [sampleIter_zero, h0]
      simp
  | succ fuel ih =>
      by_cases hib : i < bound
      · have hpos : 0 < ⌈(bound - i) / step⌉ :=
          Int.ceil_pos.mpr (div_pos (by linarith) hstep)
        have hsub : ⌈(bound - (i + step)) / step⌉ = ⌈(bound - i) / step⌉ - 1 := by
          have h1 : bound - (i + step) = bound - i - step := by ring
          have h2 : (bound - i - step) / step = (bound - i) / step - 1 := by
            rw [sub_div, div_self (ne_of_gt hstep)]
          rw [h1, h2, Int.ceil_sub_one]
        have hf' : ⌈(bound - (i + step)) / step⌉ ≤ (fuel : ℤ) := by
          rw [hsub]; push_cast at hfuel ⊢; omega
        rw [sampleIter_succ, if_pos hib, ih (i + step) hf']
        have hc : (⌈(bound - i) / step⌉).toNat
            = (⌈(bound - (i + step)) / step⌉).toNat + 1 := by
          rw [hsub]; omega
        rw [hc, List.range_succ_eq_map, List.map_cons, List.map_map]
        congr 1
        · norm_num
        · apply List.map_congr_left
          intro k _
          show s (goTrunc (i + step + (k : ℚ) * step))
            = s (goTrunc (i + ((k + 1 : ℕ) : ℚ) * step))
          congr 1
          push_cast
          ring_nf
      · have h0 : (⌈(bound - i) / step⌉).toNat = 0 := by
          have hnum : bound - i ≤ 0 := by linarith
          have hq : (bound - i) / step ≤ 0 :=
            div_nonpos_of_nonpos_of_nonneg hnum (le_of_lt hstep)
          have hceil : ⌈(bound - i) / step⌉ ≤ 0 :=
            Int.ceil_le.mpr (by exact_mod_cast hq)
          omega
        rw [sampleIter_succ, if_neg hib, h0]
        simp

-- Closed form of `Sample` for a positive rate and window starting at 0:
-- exactly `⌈to · rate / 1e9⌉` frames, the k-th being the signal at the
-- truncation of the exact product `k · 1e9 / rate`.
theorem sample_eq_of_pos_rate (s : Signal) (rate tto : Int)
    (hrate : 0 < rate) (hlen : 0 ≤ tto) :
    Sample s rate 0 tto
      = some ((List.range (⌈(tto : ℚ) * (rate : ℚ) / 1000000000⌉.toNat)).map
          (fun (k : ℕ) => s ⌊(k : ℚ) * 1000000000 / (rate : ℚ)⌋)) := by
  have hrq : (0 : ℚ) < (rate : ℚ) := by exact_mod_cast hrate
  have hstep : (0 : ℚ) < 1000000000 / (rate : ℚ) := by positivity
  rw [Sample, if_neg (by omega), if_neg (by omega)]
  simp only [zero_add, Int.cast_zero]
  rw [sampleIter_spec s _ _ hstep _ _ (Int.self_le_toNat _)]
  have hdiv : ((tto : ℚ) - 0) / (1000000000 / (rate : ℚ))
      = (tto : ℚ) * (rate : ℚ) / 1000000000 := by
    rw [sub_zero, div_div_eq_mul_div]
  rw [hdiv]
  congr 1
  apply List.map_congr_left
  intro k _
  congr 1
  have hknn : (0 : ℚ) ≤ (k : ℚ) * (1000000000 / (rate : ℚ)) := by positivity
  rw [goTrunc, if_neg (by linarith), zero_add, mul_div_assoc]

/-- Claim C5 counterexample: with `rate = 1` and `length = 1.5 seconds`
(1500000000 ns), `Sample(s, 1, 0, length)` yields 2 samples (at times 0 ns
and 10^9 ns), but `floor(length · rate / 1 second) = 1`: the claimed
cardinality is wrong, the loop count is a ceiling, not a floor. -/
theorem sample_count_floor_counterexample :
    ¬ ((Sample (Constant 0) 1 0 1500000000).map List.length
        = some ((⌊(1500000000 : ℚ) * 1 / 1000000000⌋).toNat)) := by
  rw [sample_eq_of_pos_rate (Constant 0) 1 1500000000 (by norm_num) (by norm_num)]
  simp only [Option.map_some', List.length_map, List.length_range]
  have hceil : ⌈((1500000000 : Int) : ℚ) * ((1 : Int) : ℚ) / 1000000000⌉ = 2 := by
    rw [Int.ceil_eq_iff]
    norm_num
  have hfloor : ⌊(1500000000 : ℚ) * 1 / 1000000000⌋ = 1 := by norm_num
  rw [hceil, hfloor]
  decide

/-- Claim C5 (amended): for every signal `s`, positive integer `rate` and
nonnegative `length`, `Sample(s, rate, 0, length)` returns exactly
`⌈length · rate / 1 second⌉` samples (a ceiling, not the claimed floor;
equal to the claimed count exactly when `length · rate` is a whole number
of seconds), the `k`-th being `s` evaluated at the truncation of the exact
product `k · (1 second) / rate` — all in the exact-arithmetic idealization
of the float64 loop. -/
theorem sample_count_ceil (s : Signal) (rate tto : Int)
    (hrate : 0 < rate) (hlen : 0 ≤ tto) :
    Sample s rate 0 tto
      = some ((List.range (⌈(tto : ℚ) * (rate : ℚ) / 1000000000⌉.toNat)).map
          (fun (k : ℕ) => s ⌊(k : ℚ) * 1000000000 / (rate : ℚ)⌋)) :=
  sample_eq_of_pos_rate s rate tto hrate hlen

/-- Claim C5 witness: `rate = 2`, `length = 1 second`, constant signal. -/
theorem sample_count_ceil_witness :
    0 < (2 : Int) ∧ 0 ≤ (1000000000 : Int)
      ∧ Sample (Constant 0) 2 0 1000000000
          = some ((List.range
                (⌈((1000000000 : Int) : ℚ) * ((2 : Int) : ℚ) / 1000000000⌉.toNat)).map
              (fun (k : ℕ) => Constant 0 ⌊(k : ℚ) * 1000000000 / ((2 : Int) : ℚ)⌋)) :=
  ⟨by norm_num, by norm_num,
    sample_count_ceil (Constant 0) 2 1000000000 (by norm_num) (by norm_num)⟩

/-- Claim C4 (code behavior at the failing inputs): `Sample` performs no
parameter validation at all.  With `rate = 0` it still evaluates the
signal once and returns that sample (no rejection, partial output); with
`rate = -1` and a positive window the loop never terminates; with a
negative window length it silently returns an empty frame list instead of
an error. -/
theorem sample_invalid_params_not_rejected (s : Signal) :
    Sample s 0 0 1000000000 = some [s 0]
      ∧ Sample s (-1) 0 1000000000 = none
      ∧ Sample s 1 0 (-1000000000) = some [] := by
  refine ⟨?_, ?_, ?_⟩
  · norm_num [Sample, goTrunc]
  · norm_num [Sample]
  · norm_num [Sample]
    have hc : ⌈(-1 : ℚ)⌉ ≤ 0 := Int.ceil_le.mpr (by norm_num)
    have h0 : (⌈(-1 : ℚ)⌉).toNat = 0 := by omega
    rw [h0, sampleIter_zero]

/-- Claim C9: amplitude modulation by the constant-zero envelope
annihilates any carrier: `Amplify(s, Constant(0))` evaluates to `0` at
every time offset `t`. -/
theorem amplify_constant_zero (s : Signal) (t : Int) :
    Amplify s (Constant 0) t = 0 := by
  simp [Amplify, Constant]

/-- Claim C2 (code behavior at the failing input): `Combine` with an empty
signal list does not fail fast; at every time offset it silently computes
`0.0 / 0.0`, i.e. the NaN amplitude value (modelled `none`), exactly what
the claim says must not happen. -/
theorem combine_empty_returns_nan (t : Int) :
    Combine [] t = none := rfl

-- Unfolding the append-accumulator loop of `EncodePCM`.
theorem encodePCM_foldl (frames : List Float64) (acc : List ℕ) :
    frames.foldl (fun b pulse => b ++ putUint64BE (Float64bits pulse)) acc
      = acc ++ (frames.map (fun pulse => putUint64BE (Float64bits pulse))).flatten := by
  induction frames generalizing acc with
  | nil => simp
  | cons p rest ih => simp [List.foldl_cons, ih]

theorem encodePCM_cons (p : Float64) (rest : List Float64) :
    EncodePCM (p :: rest) = putUint64BE (Float64bits p) ++ EncodePCM rest := by
  simp [EncodePCM, encodePCM_foldl]

-- Reassembling the eight big-endian bytes of a 64-bit value gives it back.
theorem putUint64BE_reassemble (v : ℕ) (hv : v < 18446744073709551616) :
    (((((((v / 2 ^ 56 % 256) * 256 + v / 2 ^ 48 % 256) * 256 + v / 2 ^ 40 % 256)
        * 256 + v / 2 ^ 32 % 256) * 256 + v / 2 ^ 24 % 256) * 256 + v / 2 ^ 16 % 256)
        * 256 + v / 2 ^ 8 % 256) * 256 + v % 256 = v := by
  omega

/-- Claim C8: `EncodePCM` produces exactly `8 * len(frames)` bytes and is
total, and decoding the buffer as consecutive big-endian 64-bit floats
(8 bytes at a time, in order) reproduces the original samples bit-for-bit. -/
theorem encodePCM_length_and_roundtrip (frames : List Float64) :
    (EncodePCM frames).length = 8 * frames.length
      ∧ DecodePCM (EncodePCM frames) = frames := by
  induction frames with
  | nil => exact ⟨rfl, rfl⟩
  | cons p rest ih =>
      obtain ⟨ihlen, ihdec⟩ := ih
      rw [encodePCM_cons]
      constructor
      · simp [putUint64BE, ihlen]; ring
      · show Float64frombits _ :: DecodePCM (EncodePCM rest) = p :: rest
        rw [ihdec]
        have hv := p.isLt
        simp only [Float64bits, Float64frombits]
        congr 1
        apply Fin.ext
        simp only []
        rw [putUint64BE_reassemble p.val hv, Nat.mod_eq_of_lt hv]

end DSP
